import Mathlib

/-!
Shallow embedding of the core of `src/OMAP-Radar.py` (an offline mesh
radar display): the equirectangular projection helpers, the node store
with its one-shot origin, the Meshtastic ingestion handlers, the MST and
KNN topology builders and the wheel-zoom viewport update.

Modelling conventions.
* Python floats are modelled as real numbers where trigonometry is
  involved (the projection) and as rationals everywhere else, so that
  concrete states stay decidable.
* A Python value that may be `None` is an `Option`.
* A computation that may raise is an `Except Unit` value; a
  `try`/`except` handler maps `.error` back to the unchanged state.
* The Python dict keyed by node id is an association list.
* Python truthiness (`x or y` on numbers, strings, options) is spelled
  out at each use site.
-/

namespace OMAP

/-! ## Coordinate projection (`latlon_to_xy_m`, `xy_m_to_latlon`) -/

/-- Degrees to radians, as in Python `math.radians(x)`. -/
noncomputable def radians (d : ℝ) : ℝ := d * Real.pi / 180

/-- The metres-per-degree constant `R = 111320.0` of the source. -/
def Rconst : ℝ := 111320

/-- Model of `latlon_to_xy_m(lat, lon, lat0, lon0)`.  The source first
checks `if None in (lat, lon, lat0, lon0): return None`, so an absent
input yields the no-value result `.ok none`; the function never raises. -/
noncomputable def latlon_to_xy_m (lat lon lat0 lon0 : Option ℝ) :
    Except Unit (Option (ℝ × ℝ)) :=
  match lat, lon, lat0, lon0 with
  | some lat, some lon, some lat0, some lon0 =>
      .ok (some ((lon - lon0) * Real.cos (radians lat0) * Rconst,
                 (lat - lat0) * Rconst))
  | _, _, _, _ => .ok none

/-- Model of `xy_m_to_latlon(xm, ym, lat0, lon0)`.  The source performs no
`None` check at all: arithmetic on an absent (`None`) input raises a
`TypeError`, modelled as `.error ()`. -/
noncomputable def xy_m_to_latlon (xm ym lat0 lon0 : Option ℝ) :
    Except Unit (Option (ℝ × ℝ)) :=
  match xm, ym, lat0, lon0 with
  | some xm, some ym, some lat0, some lon0 =>
      .ok (some (lat0 + ym / Rconst,
                 lon0 + xm / (Rconst * Real.cos (radians lat0))))
  | _, _, _, _ => .error ()

/-! ## Node store (`nodes`, `origin`, `set_origin_if_empty`, `upsert_node`) -/

/-- One stored node record, the dict built in `upsert_node`:
`{"name": nid, "lat": None, "lon": None, "last": now()}`. -/
structure NodeRec where
  name : String
  lat : Option ℚ
  lon : Option ℚ
  last : ℚ
deriving DecidableEq

/-- The `origin` dict `{"lat": None, "lon": None, "set": False}`. -/
structure Origin where
  lat : Option ℚ
  lon : Option ℚ
  set : Bool
deriving DecidableEq

/-- The global mutable state the node-store operations touch. -/
structure RadarState where
  nodes : List (String × NodeRec)
  origin : Origin
deriving DecidableEq

/-- The state at program start. -/
def initState : RadarState := ⟨[], ⟨none, none, false⟩⟩

/-- Dict lookup `nodes.get(nid)`. -/
def getNode (l : List (String × NodeRec)) (k : String) : Option NodeRec :=
  (l.find? (fun p => p.1 == k)).map (fun p => p.2)

/-- Dict store `nodes[nid] = rec`: replace the binding if present,
append otherwise. -/
def setNode : List (String × NodeRec) → String → NodeRec → List (String × NodeRec)
  | [], k, v => [(k, v)]
  | p :: r, k, v => if p.1 == k then (k, v) :: r else p :: setNode r k v

/-- Model of `set_origin_if_empty(lat, lon)`: the origin is written only
when both coordinates are present and the origin is not yet set
(`float` on an already-rational value is the identity). -/
def set_origin_if_empty (o : Origin) (lat lon : Option ℚ) : Origin :=
  if lat.isSome ∧ lon.isSome ∧ o.set = false then
    { lat := lat, lon := lon, set := true }
  else o

/-- Python `float(ts or now())` for an optional numeric `ts`: a missing
or zero (falsy) timestamp falls back to the current time `nowv`. -/
def tsOrNow (ts : Option ℚ) (nowv : ℚ) : ℚ :=
  match ts with
  | some t => if t = 0 then nowv else t
  | none => nowv

/-- Model of `upsert_node(nid, name, lat, lon, ts)`; `nowv` is the value
`now()` returns during the call.  Mirrors the source line by line: fetch
or create the record, overwrite `name` only when truthy, always rewrite
`last`, overwrite the position and try the origin only when both `lat`
and `lon` are present, then store the record. -/
def upsert_node (st : RadarState) (nid : String) (name : Option String)
    (lat lon : Option ℚ) (ts : Option ℚ) (nowv : ℚ) : RadarState :=
  let rec0 := (getNode st.nodes nid).getD ⟨nid, none, none, nowv⟩
  let rec1 := match name with
    | some s => if s = "" then rec0 else { rec0 with name := s }
    | none => rec0
  let rec2 := { rec1 with last := tsOrNow ts nowv }
  match lat, lon with
  | some la, some lo =>
      { nodes := setNode st.nodes nid { rec2 with lat := some la, lon := some lo },
        origin := set_origin_if_empty st.origin (some la) (some lo) }
  | _, _ => { nodes := setNode st.nodes nid rec2, origin := st.origin }

/-- States reachable from the initial state by any sequence of
`upsert_node` calls. -/
inductive ReachState : RadarState → Prop
  | init : ReachState initState
  | step (st : RadarState) (nid : String) (name : Option String)
      (lat lon ts : Option ℚ) (nowv : ℚ) :
      ReachState st → ReachState (upsert_node st nid name lat lon ts nowv)

/-! ## Ingestion handlers (`on_rx`, `on_node_updated`) -/

/-- A Python value handed to `float(...)`: either a number, or a truthy
non-numeric value (for instance a string) on which `float` raises. -/
inductive PyFloat
  | val (q : ℚ)
  | bad
deriving DecidableEq

/-- Python truthiness of such a value: `0` is falsy. -/
def PyFloat.truthy : PyFloat → Bool
  | .val q => q != 0
  | .bad => true

/-- Python `float(v)`: identity on numbers, `TypeError`/`ValueError`
(modelled `.error ()`) otherwise. -/
def pyFloat : PyFloat → Except Unit ℚ
  | .val q => .ok q
  | .bad => .error ()

/-- Python `a or b` on strings: the empty string is falsy. -/
def orS (a b : String) : String := if a = "" then b else a

/-- Python `a or b` where `a` is an optional string and the result must
be a string: `None` and `""` are falsy. -/
def orOptS (a : Option String) (b : String) : String :=
  match a with
  | some s => if s = "" then b else s
  | none => b

/-- The value of `pkt.get("from")`: absent, a numeric sender id, the
empty dict `{}` (falsy; its `str` under `or ""` is `""`), or a nonempty
sender dict carrying optional `longName`/`shortName` among its keys. -/
inductive FromField
  | num (v : Int)
  | emptyDict
  | dict (longName shortName : Option String)
deriving DecidableEq

/-- Python `str(pkt.get("from") or "")`: an absent `from` gives `""`, a
number its decimal rendering (`0` is falsy and also gives `""`), the
empty dict `""` (`{} or ""` is `""`), and a nonempty dict its nonempty
repr string. -/
def strFrom : Option FromField → String
  | none => ""
  | some (.num v) => if v = 0 then "" else toString v
  | some .emptyDict => ""
  | some (.dict _ _) => "dict-repr"

/-- A position dict reached by the lookup chain of `on_rx`: carries the
values under the keys `latitude` and `longitude`, each an outer `none`
when the key is missing and an inner `none` when the stored value is
`None`; a present value is any `float(...)` argument, so it may be
unfloatable (`PyFloat.bad`). -/
structure PosDict where
  lat : Option (Option PyFloat)
  lon : Option (Option PyFloat)
deriving DecidableEq

/-- The store as `upsert_node` leaves it when `float(lat), float(lon)`
raises.  `rec = nodes.get(nid)` aliases the stored dict, and
`rec["name"]`/`rec["last"]` were assigned before the conversion, so for
a known id those in-place writes are already visible; the tuple on the
right of `rec["lat"], rec["lon"] = float(lat), float(lon)` is evaluated
before any assignment, so the position is untouched, and
`set_origin_if_empty` and `nodes[nid] = rec` are never reached (for an
unknown id the fresh dict is simply discarded). -/
def upsert_raised (st : RadarState) (nid : String) (name : Option String)
    (ts : Option ℚ) (nowv : ℚ) : RadarState :=
  match getNode st.nodes nid with
  | some r =>
      let r1 := match name with
        | some s => if s = "" then r else { r with name := s }
        | none => r
      { st with nodes := setNode st.nodes nid { r1 with last := tsOrNow ts nowv } }
  | none => st

/-- `upsert_node` as called from the ingestion handlers, where the
position values come straight off the packet and may be unfloatable.
The `lat is not None and lon is not None` guard is the outer match;
only inside it does `float` run on the two values, and a raise escapes
(`.error`) with the store as `upsert_raised` describes. -/
def upsert_node_pv (st : RadarState) (nid : String) (name : Option String)
    (lat lon : Option PyFloat) (ts : Option ℚ) (nowv : ℚ) :
    Except RadarState RadarState :=
  match lat, lon with
  | some lv, some lov =>
      match pyFloat lv, pyFloat lov with
      | .ok la, .ok lo => .ok (upsert_node st nid name (some la) (some lo) ts nowv)
      | _, _ => .error (upsert_raised st nid name ts nowv)
  | _, _ => .ok (upsert_node st nid name none none ts nowv)

/-- A packet as `on_rx` receives it: `None`, raw bytes, an object with no
dict shape (`_as_dict` returns `None`), the empty dict (falsy, caught by
`if not pkt`), or a nonempty dict.  The dict's `pos` field is the first
truthy result of the source's `decoded`/`payload`/packet-level position
lookups. -/
inductive RxPacket
  | nonePkt
  | bytesPkt
  | nonDict
  | emptyDict
  | dict (fromId : Option String) (fromF : Option FromField)
      (rxTime : Option PyFloat) (pos : Option PosDict)
deriving DecidableEq

/-- The body of `on_rx`'s `try:` block.  A raised exception escapes to
the handler as `.error` carrying the store as mutated so far: unchanged
when `float(rxTime)` raises, `upsert_raised` when a position
conversion raises inside `upsert_node`. -/
def on_rx_try (fromId : Option String) (fromF : Option FromField)
    (rxTime : Option PyFloat) (pos : Option PosDict)
    (st : RadarState) (nowv : ℚ) : Except RadarState RadarState :=
  -- nid = pkt.get("fromId") or str(pkt.get("from") or "") or "unknown"
  let nid := orS (fromId.getD "") (orS (strFrom fromF) "unknown")
  -- ts = float(pkt.get("rxTime") or now())
  let tsE : Except Unit ℚ := match rxTime with
    | some pv => if pv.truthy then pyFloat pv else .ok nowv
    | none => .ok nowv
  match tsE with
  | .error _ => .error st
  | .ok ts =>
    -- name = frm.get("longName") or frm.get("shortName")  (when frm is a dict)
    let name : Option String := match fromF with
      | some (.dict ln sn) =>
          (match ln with
           | some s => if s = "" then sn else some s
           | none => sn)
      | _ => none
    -- positioned upsert only when the position dict has both keys
    match pos with
    | some p =>
        match p.lat, p.lon with
        | some la, some lo =>
            upsert_node_pv st nid (some (orOptS name nid)) la lo (some ts) nowv
        | _, _ => .ok (upsert_node st nid (some (orOptS name nid)) none none (some ts) nowv)
    | none => .ok (upsert_node st nid (some (orOptS name nid)) none none (some ts) nowv)

/-- Model of `on_rx(packet, ...)`: early returns for `None`, bytes,
non-dict and empty-dict packets, then the `try:` body with every
exception swallowed — the store is left as the body had mutated it when
the exception was raised. -/
def on_rx (p : RxPacket) (st : RadarState) (nowv : ℚ) : RadarState :=
  match p with
  | .nonePkt => st
  | .bytesPkt => st
  | .nonDict => st
  | .emptyDict => st
  | .dict fromId fromF rxTime pos =>
      match on_rx_try fromId fromF rxTime pos st nowv with
      | .ok st2 => st2
      | .error st2 => st2

/-- A node-db entry as `on_node_updated` receives it: not dict-shaped,
the empty dict (falsy, caught by `if not nd`), or a nonempty dict with
optional `num`, `id`, `user` (long/short names) and `position`
(latitude/longitude values, possibly unfloatable). -/
inductive NodePkt
  | nonDict
  | emptyDict
  | dict (num : Option Int) (idF : Option String)
      (user : Option (Option String × Option String))
      (pos : Option (Option PyFloat × Option PyFloat))
deriving DecidableEq

/-- Python `str(nd.get("num") or nd.get("id") or "")`: a nonzero `num`
renders in decimal, else a present `id` string is used as is, else the
result is empty. -/
def nodeNid (num : Option Int) (idF : Option String) : String :=
  match num with
  | some v => if v = 0 then (idF.getD "") else toString v
  | none => idF.getD ""

/-- Model of `on_node_updated(node)`: non-dict and empty-dict nodes and
empty ids are dropped; otherwise the record is upserted with `now()` as
timestamp, the surrounding `try/except` swallowing a raising position
conversion with the store as `upsert_node` had mutated it. -/
def on_node_updated (p : NodePkt) (st : RadarState) (nowv : ℚ) : RadarState :=
  match p with
  | .nonDict => st
  | .emptyDict => st
  | .dict num idF user pos =>
      let nid := nodeNid num idF
      if nid = "" then st
      else
        let name := match user with
          | some (ln, sn) => orOptS ln (orOptS sn nid)
          | none => nid
        let la := match pos with | some q => q.1 | none => none
        let lo := match pos with | some q => q.2 | none => none
        match upsert_node_pv st nid (some name) la lo (some nowv) nowv with
        | .ok st2 => st2
        | .error st2 => st2

/-! ## Viewport: wheel zoom at a point -/

/-- The zoom mode, `"fit"` or `"manual"`. -/
inductive ZoomMode
  | fit
  | manual
deriving DecidableEq

/-- The view state touched by the wheel handler: `zoom_mode`, `zoom_k`,
`pan_x_m`, `pan_y_m`. -/
structure View where
  mode : ZoomMode
  zoom_k : ℚ
  pan_x : ℚ
  pan_y : ℚ
deriving DecidableEq

/-- The zoom step constant `ZOOM_STEP = 1.15`. -/
def ZOOM_STEP : ℚ := 115 / 100

/-- The effective scale recomputed each frame and inside the wheel
handler: `fit_scale if zoom_mode == "fit" else max(0.0001, fit_scale*zoom_k)`. -/
def scaleOf (v : View) (fit_scale : ℚ) : ℚ :=
  if v.mode = .fit then fit_scale else max (1 / 10000) (fit_scale * v.zoom_k)

/-- Python `int(x)` truncates toward zero. -/
def pyInt (q : ℚ) : Int := if 0 ≤ q then ⌊q⌋ else ⌈q⌉

/-- Model of the `to_screen(xm, ym)` closure:
`int(cx+(xm-pan_x_m)*scale), int(cy-(ym-pan_y_m)*scale)`. -/
def to_screen (v : View) (fit_scale : ℚ) (cx cy : ℤ) (xm ym : ℚ) : ℤ × ℤ :=
  let scale := scaleOf v fit_scale
  (pyInt ((cx : ℚ) + (xm - v.pan_x) * scale),
   pyInt ((cy : ℚ) - (ym - v.pan_y) * scale))

/-- The world point under screen point `(mx, my)` before the zoom, as the
wheel handler computes it: `wx = (mx-cx)/scale + pan_x_m`,
`wy = -(my-cy)/scale + pan_y_m`. -/
def screen_to_world (v : View) (fit_scale : ℚ) (cx cy mx my : ℤ) : ℚ × ℚ :=
  let scale := scaleOf v fit_scale
  (((mx : ℚ) - cx) / scale + v.pan_x,
   -(((my : ℚ) - cy)) / scale + v.pan_y)

/-- Model of the `WHEEL_EVT` branch over the plot area: remember the
world point under the cursor, force manual mode, scale `zoom_k` by
`ZOOM_STEP` (direction `dirn`), recompute `scale`, and back-solve the pan
so the saved world point is under the cursor again. -/
def wheel_zoom (v : View) (fit_scale : ℚ) (cx cy mx my : ℤ) (dirn : Bool) : View :=
  let w := screen_to_world v fit_scale cx cy mx my
  let k2 := if dirn then v.zoom_k * ZOOM_STEP else v.zoom_k / ZOOM_STEP
  let v2 : View := { mode := .manual, zoom_k := k2, pan_x := v.pan_x, pan_y := v.pan_y }
  let scale2 := scaleOf v2 fit_scale
  { v2 with
    pan_x := w.1 - ((mx : ℚ) - cx) / scale2,
    pan_y := w.2 + ((my : ℚ) - cy) / scale2 }

/-! ## Topology builder (`_euclid2`, `build_mst_edges`, `build_knn_edges`) -/

/-- A planar point in metres. -/
abbrev Pt := ℚ × ℚ

/-- Model of `_euclid2(ax, ay, bx, by)`. -/
def _euclid2 (ax ay bx byy : ℚ) : ℚ :=
  (ax - bx) * (ax - bx) + (ay - byy) * (ay - byy)

/-- Squared distance between `points[i]` and `points[j]`. -/
def d2at (pts : List Pt) (i j : ℕ) : ℚ :=
  _euclid2 (pts.getD i (0, 0)).1 (pts.getD i (0, 0)).2
    (pts.getD j (0, 0)).1 (pts.getD j (0, 0)).2

/-- The mutable arrays and the growing edge list of `build_mst_edges`,
with `float("inf")` as `⊤ : WithTop ℚ` and the `-1` parent sentinel kept
as an integer. -/
structure MstState where
  in_tree : ℕ → Bool
  dist2 : ℕ → WithTop ℚ
  parent : ℕ → ℤ
  edges : List (ℕ × ℤ)

/-- The state after the initialisation loop of `build_mst_edges`:
`in_tree[0] = True`, and for `j` in `range(1, n)` the distance to point
`0` and parent `0`. -/
def mstInit (pts : List Pt) : MstState :=
  let n := pts.length
  { in_tree := fun j => j == 0
    dist2 := fun j => if 1 ≤ j ∧ j < n then ((d2at pts 0 j : ℚ) : WithTop ℚ) else ⊤
    parent := fun j => if 1 ≤ j ∧ j < n then 0 else -1
    edges := [] }

/-- One step of the selection loop `for j in range(n): if not in_tree[j]
and dist2[j] < best: best, k = dist2[j], j`. -/
def selectFold (st : MstState) (acc : ℤ × WithTop ℚ) (j : ℕ) : ℤ × WithTop ℚ :=
  if st.in_tree j = false ∧ st.dist2 j < acc.2 then ((j : ℤ), st.dist2 j) else acc

/-- The selection loop, starting from `k = -1; best = float("inf")`. -/
def selectMin (st : MstState) (n : ℕ) : ℤ × WithTop ℚ :=
  (List.range n).foldl (selectFold st) (-1, ⊤)

/-- The body after a successful selection of `k`: mark `k`, append the
edge `(k, parent[k])`, and relax `dist2`/`parent` of the points still
outside the tree. -/
def mstStep (pts : List Pt) (st : MstState) (k : ℕ) : MstState :=
  let n := pts.length
  let inT : ℕ → Bool := fun j => j == k || st.in_tree j
  { in_tree := inT
    dist2 := fun j =>
      if j < n ∧ inT j = false ∧ ((d2at pts k j : ℚ) : WithTop ℚ) < st.dist2 j
      then ((d2at pts k j : ℚ) : WithTop ℚ) else st.dist2 j
    parent := fun j =>
      if j < n ∧ inT j = false ∧ ((d2at pts k j : ℚ) : WithTop ℚ) < st.dist2 j
      then (k : ℤ) else st.parent j
    edges := st.edges ++ [(k, st.parent k)] }

/-- The main loop `for _ in range(n-1)`, with the `if k == -1: break`
early exit. -/
def mstLoop (pts : List Pt) : ℕ → MstState → MstState
  | 0, st => st
  | t + 1, st =>
    let k := (selectMin st pts.length).1
    if k < 0 then st
    else mstLoop pts t (mstStep pts st k.toNat)

/-- Model of `build_mst_edges(points)`. -/
def build_mst_edges (pts : List Pt) : List (ℕ × ℤ) :=
  if pts.length ≤ 1 then []
  else (mstLoop pts (pts.length - 1) (mstInit pts)).edges

/-- The edges of `build_mst_edges` with the parent entries (always
nonnegative, as proved below) read back as naturals. -/
def edgesN (es : List (ℕ × ℤ)) : List (ℕ × ℕ) :=
  es.map (fun e => (e.1, e.2.toNat))

/-- The inner neighbour loop of `build_knn_edges`: walk the sorted
`(d2, j)` list, skip pairs beyond `max_m2`, insert unseen canonical
pairs, and stop once `added >= k` new pairs were inserted for this
point.  Note the count test runs only after an insertion. -/
def knnInner (i : ℕ) (maxm2 : ℚ) (k : ℕ) :
    List (ℚ × ℕ) → ℕ → Finset (ℕ × ℕ) → Finset (ℕ × ℕ)
  | [], _, out => out
  | (d2, j) :: rest, added, out =>
    if d2 ≤ maxm2 then
      let ab := (min i j, max i j)
      if ab ∉ out then
        let out2 := insert ab out
        if added + 1 ≥ k then out2
        else knnInner i maxm2 k rest (added + 1) out2
      else knnInner i maxm2 k rest added out
    else knnInner i maxm2 k rest added out

/-- The neighbour candidate list of point `i`: `(d2, j)` for every other
index, sorted ascending by `d2` (Python's sort is stable, so ties keep
the ascending index order, which `mergeSort` reproduces). -/
def dlistOf (pts : List Pt) (i : ℕ) : List (ℚ × ℕ) :=
  (((List.range pts.length).filter (fun j => j != i)).map
      (fun j => (d2at pts i j, j))).mergeSort (fun a b => a.1 ≤ b.1)

/-- The outer loop of `build_knn_edges` over `i in range(n)`. -/
def knnOuter (pts : List Pt) (maxm2 : ℚ) (k : ℕ) :
    List ℕ → Finset (ℕ × ℕ) → Finset (ℕ × ℕ)
  | [], out => out
  | i :: is', out => knnOuter pts maxm2 k is' (knnInner i maxm2 k (dlistOf pts i) 0 out)

/-- Model of `build_knn_edges(points, k, max_m)`; the Python `set` of
canonical pairs is a `Finset` (the list order of `list(out)` is
unspecified in the source). -/
def build_knn_edges (pts : List Pt) (k : ℕ) (max_m : ℚ) : Finset (ℕ × ℕ) :=
  knnOuter pts (max_m * max_m) k (List.range pts.length) ∅

/-- Modelled from the spec (for comparison with `build_knn_edges`): for
each point, the up-to-`k` nearest other points by ascending squared
distance (ties by ascending index) whose distance does not exceed
`maxDistance`, each accepted pair canonicalised and the union
deduplicated. -/
def knn_spec (pts : List Pt) (k : ℕ) (max_m : ℚ) : Finset (ℕ × ℕ) :=
  (List.range pts.length).foldr
    (fun i acc =>
      ((((dlistOf pts i).filter (fun dj => dj.1 ≤ max_m * max_m)).take k).map
          (fun dj => (min i dj.2, max i dj.2))).toFinset ∪ acc) ∅

/-! ## Graph notions used to state the spanning-tree property -/

/-- Vertex order of a growing tree: the start list followed by each
edge's new endpoint, in insertion order. -/
def growVerts : List ℕ → List (ℕ × ℕ) → List ℕ
  | vs, [] => vs
  | vs, e :: r => growVerts (vs ++ [e.1]) r

/-- The edge list grows a tree out of the vertex list `vs`: each edge
joins a fresh vertex `e.1` to an already present vertex `e.2`. -/
def IsGrowthL : List ℕ → List (ℕ × ℕ) → Prop
  | _, [] => True
  | vs, e :: r => e.1 ∉ vs ∧ e.2 ∈ vs ∧ IsGrowthL (vs ++ [e.1]) r

/-- Undirected adjacency induced by an edge list on indices. -/
def adjE (es : List (ℕ × ℕ)) (a b : ℕ) : Prop := (a, b) ∈ es ∨ (b, a) ∈ es

/-- The simple graph on `Fin n` induced by an edge list on indices. -/
def idxGraph (n : ℕ) (es : List (ℕ × ℕ)) : SimpleGraph (Fin n) where
  Adj i j := i ≠ j ∧ adjE es i.val j.val
  symm := by
    intro i j h
    exact ⟨h.1.symm, h.2.symm⟩
  loopless := by intro i h; exact h.1 rfl

/-- The new endpoint (child) of the edge of `es` whose canonical
unordered pair is `e`; meaningful when such an edge exists and the
unordered pairs of `es` do not repeat. -/
def childOf (es : List (ℕ × ℕ)) (e : Sym2 ℕ) : ℕ :=
  ((es.find? (fun p => s(p.1, p.2) == e)).getD (0, 0)).1

/-- The position at which a vertex enters the growing tree rooted at
index `0`. -/
def rankOf (es : List (ℕ × ℕ)) (v : ℕ) : ℕ := (growVerts [0] es).indexOf v

/-- The loop invariant of `build_mst_edges`: the tree contains index `0`
and only valid indices, every point still outside the tree has a finite
key and a valid in-tree parent, and the edge list grows a tree whose
vertex list mirrors `in_tree`. -/
structure MstInv (n : ℕ) (st : MstState) : Prop where
  tree_sub : ∀ j, st.in_tree j = true → j < n
  tree_zero : st.in_tree 0 = true
  nontree : ∀ j, j < n → st.in_tree j = false →
    st.dist2 j ≠ ⊤ ∧ 0 ≤ st.parent j ∧ (st.parent j).toNat < n ∧
      st.in_tree (st.parent j).toNat = true
  growth : IsGrowthL [0] (edgesN st.edges)
  grow_iff : ∀ j, j ∈ growVerts [0] (edgesN st.edges) ↔ st.in_tree j = true
  bounds : ∀ e ∈ st.edges, e.1 < n ∧ 0 ≤ e.2 ∧ e.2.toNat < n

/-! ## Node-store lemmas -/

theorem getNode_setNode_self (l : List (String × NodeRec)) (k : String) (v : NodeRec) :
    getNode (setNode l k v) k = some v := by
  induction l with
  | nil => simp [getNode, setNode]
  | cons p r ih =>
    by_cases h : p.1 = k
    · simp [setNode, getNode, h]
    · simpa [setNode, getNode, h] using ih

theorem getNode_setNode_other (l : List (String × NodeRec)) (k k2 : String) (v : NodeRec)
    (h : k2 ≠ k) : getNode (setNode l k v) k2 = getNode l k2 := by
  induction l with
  | nil => simp [getNode, setNode, h, Ne.symm h]
  | cons p r ih =>
    by_cases hp : p.1 = k
    · simp [setNode, getNode, hp, h, Ne.symm h]
    · by_cases hp2 : p.1 = k2
      · simp [setNode, getNode, hp, hp2, h]
      · simpa [setNode, getNode, hp, hp2] using ih

/-- C1 (amended): `upsert_node` is a merge, not a replace.  For a stored
record: an update with an absent coordinate leaves the stored position
unchanged, both coordinates present overwrite it, an absent name leaves
the name, and `last` is set to the update's timestamp when the timestamp
is present and nonzero and to the current time otherwise. -/
theorem upsert_node_merge (st : RadarState) (nid : String) (name : Option String)
    (lat lon ts : Option ℚ) (nowv : ℚ) (r : NodeRec)
    (h : getNode st.nodes nid = some r) :
    ∃ r2, getNode (upsert_node st nid name lat lon ts nowv).nodes nid = some r2 ∧
      ((lat = none ∨ lon = none) → r2.lat = r.lat ∧ r2.lon = r.lon) ∧
      (∀ la lo, lat = some la → lon = some lo → r2.lat = some la ∧ r2.lon = some lo) ∧
      (name = none → r2.name = r.name) ∧
      (∀ t, ts = some t → t ≠ 0 → r2.last = t) ∧
      ((ts = none ∨ ts = some 0) → r2.last = nowv) := by
  unfold upsert_node
  simp only [h, Option.getD_some]
  rcases name with _ | s <;> rcases lat with _ | la <;> rcases lon with _ | lo <;>
    rcases ts with _ | t <;>
    refine ⟨_, getNode_setNode_self _ _ _, ?_, ?_, ?_, ?_, ?_⟩
  all_goals intros
  all_goals simp_all [tsOrNow, apply_ite]

/-- Witness for C1: a stored record with a known position, updated with a
new name and a fresh nonzero timestamp but no coordinates, keeps its
position and takes the carried timestamp. -/
theorem upsert_node_merge_witness :
    ∃ r2, getNode (upsert_node ⟨[("A", ⟨"A", some 1, some 2, 100⟩)], ⟨some 1, some 2, true⟩⟩
        "A" (some "B") none none (some 7) 9).nodes "A" = some r2 ∧
      r2.lat = some 1 ∧ r2.lon = some 2 ∧ r2.last = 7 := by
  obtain ⟨r2, hg, hmerge, -, -, hts, -⟩ :=
    upsert_node_merge ⟨[("A", ⟨"A", some 1, some 2, 100⟩)], ⟨some 1, some 2, true⟩⟩
      "A" (some "B") none none (some 7) 9 ⟨"A", some 1, some 2, 100⟩ (by decide)
  obtain ⟨hla, hlo⟩ := hmerge (Or.inl rfl)
  exact ⟨r2, hg, by simp [hla], by simp [hlo], hts 7 rfl (by norm_num)⟩

/-- Counterexample for C1 as stated: the update carries the (present)
timestamp `0`, yet `lastSeen` becomes the current time `5`, because
`float(ts or now())` treats a zero timestamp as absent. -/
theorem upsert_node_ts_zero_cex :
    (getNode (upsert_node ⟨[("A", ⟨"A", some 1, some 2, 100⟩)], ⟨some 1, some 2, true⟩⟩
        "A" none none none (some 0) 5).nodes "A").map NodeRec.last = some 5 ∧
    ¬ ((getNode (upsert_node ⟨[("A", ⟨"A", some 1, some 2, 100⟩)], ⟨some 1, some 2, true⟩⟩
        "A" none none none (some 0) 5).nodes "A").map NodeRec.last = some 0) := by
  decide

/-- C2: once the origin is set, applying any further update (with or
without a fix) leaves the origin's lat, lon and set flag unchanged. -/
theorem origin_set_immutable (st : RadarState) (nid : String) (name : Option String)
    (lat lon ts : Option ℚ) (nowv : ℚ) (h : st.origin.set = true) :
    (upsert_node st nid name lat lon ts nowv).origin = st.origin := by
  unfold upsert_node set_origin_if_empty
  rcases lat with _ | la <;> rcases lon with _ | lo <;> simp [h]

/-- Witness for C2: with the origin set to `(1, 2)`, an update carrying
the different fix `(3, 4)` leaves the origin untouched. -/
theorem origin_set_immutable_witness :
    (upsert_node ⟨[], ⟨some 1, some 2, true⟩⟩ "A" none (some 3) (some 4) none 1).origin
      = Origin.mk (some 1) (some 2) true :=
  origin_set_immutable ⟨[], ⟨some 1, some 2, true⟩⟩ "A" none (some 3) (some 4) none 1 rfl

theorem upsert_keeps_pair (st : RadarState)
    (hst : ∀ nid r, getNode st.nodes nid = some r → (r.lat.isSome ↔ r.lon.isSome))
    (nid : String) (name : Option String) (lat lon ts : Option ℚ) (nowv : ℚ) :
    ∀ nid2 r, getNode (upsert_node st nid name lat lon ts nowv).nodes nid2 = some r →
      (r.lat.isSome ↔ r.lon.isSome) := by
  intro nid2 r hr
  by_cases hq : nid2 = nid
  · subst hq
    have hp0 : ((getNode st.nodes nid2).getD ⟨nid2, none, none, nowv⟩).lat.isSome ↔
        ((getNode st.nodes nid2).getD ⟨nid2, none, none, nowv⟩).lon.isSome := by
      rcases hg : getNode st.nodes nid2 with _ | r0
      · simp
      · simpa using hst _ _ hg
    unfold upsert_node at hr
    rcases lat with _ | la <;> rcases lon with _ | lo <;>
      rw [getNode_setNode_self, Option.some.injEq] at hr <;>
      subst hr <;>
      rcases name with _ | s <;>
      simp_all [apply_ite]
  · unfold upsert_node at hr
    rcases lat with _ | la <;> rcases lon with _ | lo <;>
      rw [getNode_setNode_other _ _ _ _ hq] at hr <;>
      exact hst _ _ hr

theorem upsert_one_sided (st : RadarState) (nid : String) (name : Option String)
    (lat lon ts : Option ℚ) (nowv : ℚ) (hone : lat = none ∨ lon = none) :
    (upsert_node st nid name lat lon ts nowv).origin = st.origin ∧
    ∀ nid2 r0, getNode st.nodes nid2 = some r0 →
      ∃ r1, getNode (upsert_node st nid name lat lon ts nowv).nodes nid2 = some r1 ∧
        r1.lat = r0.lat ∧ r1.lon = r0.lon := by
  have hcase : lat = none ∨ (lon = none ∧ ∃ la, lat = some la) := by
    rcases lat with _ | la
    · exact Or.inl rfl
    · rcases hone with h | h
      · exact absurd h (by simp)
      · exact Or.inr ⟨h, la, rfl⟩
  constructor
  · unfold upsert_node
    rcases hcase with rfl | ⟨rfl, la, rfl⟩
    · rcases lon with _ | lo <;> rfl
    · rfl
  · intro nid2 r0 hg
    by_cases hq : nid2 = nid
    · subst hq
      unfold upsert_node
      rcases hcase with rfl | ⟨rfl, la, rfl⟩
      · rcases lon with _ | lo <;>
          refine ⟨_, getNode_setNode_self _ _ _, ?_⟩ <;>
          rcases name with _ | s <;> simp_all [apply_ite]
      · refine ⟨_, getNode_setNode_self _ _ _, ?_⟩
        rcases name with _ | s <;> simp_all [apply_ite]
    · unfold upsert_node
      rcases hcase with rfl | ⟨rfl, la, rfl⟩
      · rcases lon with _ | lo <;> rw [getNode_setNode_other _ _ _ _ hq] <;>
          exact ⟨r0, hg, rfl, rfl⟩
      · rw [getNode_setNode_other _ _ _ _ hq]
        exact ⟨r0, hg, rfl, rfl⟩

/-- C10: in every state reachable by `upsert_node` calls, each stored
record has its lat and lon either both absent or both present, and an
update carrying only one coordinate changes no stored position and never
touches the origin. -/
theorem position_pair_atomic (st : RadarState) (h : ReachState st) :
    (∀ nid r, getNode st.nodes nid = some r → (r.lat.isSome ↔ r.lon.isSome)) ∧
    (∀ (nid : String) (name : Option String) (lat lon ts : Option ℚ) (nowv : ℚ),
      lat = none ∨ lon = none →
      (upsert_node st nid name lat lon ts nowv).origin = st.origin ∧
      ∀ nid2 r0, getNode st.nodes nid2 = some r0 →
        ∃ r1, getNode (upsert_node st nid name lat lon ts nowv).nodes nid2 = some r1 ∧
          r1.lat = r0.lat ∧ r1.lon = r0.lon) := by
  constructor
  · induction h with
    | init => intro nid r hr; simp [getNode, initState] at hr
    | step st nid name lat lon ts nowv hst ih =>
      exact upsert_keeps_pair st ih nid name lat lon ts nowv
  · intro nid name lat lon ts nowv hone
    exact upsert_one_sided st nid name lat lon ts nowv hone

/-- Witness for C10 at a concrete reachable state: one positioned and one
bare update applied to the initial state; the stored record for `"A"` has
both coordinates. -/
theorem position_pair_atomic_witness :
    (NodeRec.mk "A" (some 1) (some 2) 3).lat.isSome ↔
    (NodeRec.mk "A" (some 1) (some 2) 3).lon.isSome :=
  (position_pair_atomic _
    (ReachState.step _ "B" none none none none 4
      (ReachState.step _ "A" none (some 1) (some 2) none 3 ReachState.init))).1
    "A" ⟨"A", some 1, some 2, 3⟩ (by decide)

/-! ## Projection claims -/

/-- C3: projecting `(lat, lon)` with origin `(lat0, lon0)` and
unprojecting the result with the same origin returns `(lat, lon)`
exactly (the model works over the reals, so the floating-point tolerance
of the claim is met with zero error), provided `cos(radians(lat0))` is
nonzero. -/
theorem projection_round_trip (lat lon lat0 lon0 : ℝ)
    (h : Real.cos (radians lat0) ≠ 0) :
    ∃ x y, latlon_to_xy_m (some lat) (some lon) (some lat0) (some lon0)
        = .ok (some (x, y)) ∧
      xy_m_to_latlon (some x) (some y) (some lat0) (some lon0)
        = .ok (some (lat, lon)) := by
  refine ⟨(lon - lon0) * Real.cos (radians lat0) * Rconst, (lat - lat0) * Rconst, rfl, ?_⟩
  have hR : Rconst ≠ 0 := by norm_num [Rconst]
  simp only [xy_m_to_latlon]
  have h1 : lat0 + (lat - lat0) * Rconst / Rconst = lat := by
    field_simp
  have h2 : lon0 + (lon - lon0) * Real.cos (radians lat0) * Rconst /
      (Rconst * Real.cos (radians lat0)) = lon := by
    field_simp
    ring
  rw [h1, h2]

/-- Witness for C3 at origin latitude `0`, where the cosine factor is
`1`. -/
theorem projection_round_trip_witness :
    ∃ x y, latlon_to_xy_m (some 1) (some 2) (some 0) (some 3)
        = .ok (some (x, y)) ∧
      xy_m_to_latlon (some x) (some y) (some 0) (some 3)
        = .ok (some (1, 2)) :=
  projection_round_trip 1 2 0 3 (by simp [radians])

/-- C8 (amended): with any input absent, `latlon_to_xy_m` returns the
no-value result, while `xy_m_to_latlon`, which has no `None` guard,
raises instead of returning a value. -/
theorem projection_absent_input (xm ym lat0 lon0 : Option ℝ)
    (h : xm = none ∨ ym = none ∨ lat0 = none ∨ lon0 = none) :
    latlon_to_xy_m xm ym lat0 lon0 = .ok none ∧
    xy_m_to_latlon xm ym lat0 lon0 = .error () := by
  rcases xm with _ | a <;> rcases ym with _ | b <;>
    rcases lat0 with _ | c <;> rcases lon0 with _ | d <;>
    simp_all [latlon_to_xy_m, xy_m_to_latlon]

/-- Witness for C8 (amended) with an absent first coordinate. -/
theorem projection_absent_input_witness :
    latlon_to_xy_m none (some 0) (some 0) (some 0) = .ok none ∧
    xy_m_to_latlon none (some 0) (some 0) (some 0) = .error () :=
  projection_absent_input none (some 0) (some 0) (some 0) (Or.inl rfl)

/-- Counterexample for C8 as stated: on an absent input
`xy_m_to_latlon` raises (`.error`), it does not return the no-value
result `.ok none`. -/
theorem xy_m_to_latlon_raises_cex :
    xy_m_to_latlon none (some 1) (some 1) (some 1) = .error () ∧
    ¬ (xy_m_to_latlon none (some 1) (some 1) (some 1) = .ok none) := by
  constructor
  · rfl
  · intro hcontra
    simp [xy_m_to_latlon] at hcontra

/-! ## Viewport claim -/

theorem pyInt_intCast (n : ℤ) : pyInt (n : ℚ) = n := by
  unfold pyInt
  split <;> simp

theorem pyInt_eq_of (q : ℚ) (n : ℤ) (h : q = (n : ℚ)) : pyInt q = n := by
  rw [h, pyInt_intCast]

theorem anchor_before_x (c q px s : ℚ) (hs : s ≠ 0) :
    c + ((q - c) / s + px - px) * s = q := by
  rw [show (q - c) / s + px - px = (q - c) / s from by ring, div_mul_cancel₀ _ hs]
  ring

theorem anchor_before_y (c q py s : ℚ) (hs : s ≠ 0) :
    c - (-(q - c) / s + py - py) * s = q := by
  rw [show -(q - c) / s + py - py = -((q - c) / s) from by ring, neg_mul,
    div_mul_cancel₀ _ hs]
  ring

theorem anchor_after_x (c q w s2 : ℚ) (hs2 : s2 ≠ 0) :
    c + (w - (w - (q - c) / s2)) * s2 = q := by
  rw [show w - (w - (q - c) / s2) = (q - c) / s2 from by ring, div_mul_cancel₀ _ hs2]
  ring

theorem anchor_after_y (c q w s2 : ℚ) (hs2 : s2 ≠ 0) :
    c - (w - (w + (q - c) / s2)) * s2 = q := by
  rw [show w - (w + (q - c) / s2) = -((q - c) / s2) from by ring, neg_mul,
    div_mul_cancel₀ _ hs2]
  ring

/-- C9: the world point under the cursor before a wheel-zoom step is
mapped by `to_screen` exactly to the cursor both before and after the
step (exactness implies the claimed one-pixel bound), for either zoom
direction, whenever the pre-zoom scale is positive. -/
theorem wheel_zoom_anchor (v : View) (fit_scale : ℚ) (cx cy mx my : ℤ) (dirn : Bool)
    (h : 0 < scaleOf v fit_scale) :
    to_screen v fit_scale cx cy (screen_to_world v fit_scale cx cy mx my).1
        (screen_to_world v fit_scale cx cy mx my).2 = (mx, my) ∧
    to_screen (wheel_zoom v fit_scale cx cy mx my dirn) fit_scale cx cy
        (screen_to_world v fit_scale cx cy mx my).1
        (screen_to_world v fit_scale cx cy mx my).2 = (mx, my) := by
  have hs : scaleOf v fit_scale ≠ 0 := ne_of_gt h
  have hv2 : ∀ px py : ℚ, scaleOf ⟨ZoomMode.manual,
        if dirn then v.zoom_k * ZOOM_STEP else v.zoom_k / ZOOM_STEP, px, py⟩ fit_scale
      = max (1 / 10000)
        (fit_scale * (if dirn then v.zoom_k * ZOOM_STEP else v.zoom_k / ZOOM_STEP)) :=
    fun _ _ => rfl
  have hs2 : max (1 / 10000 : ℚ)
      (fit_scale * (if dirn then v.zoom_k * ZOOM_STEP else v.zoom_k / ZOOM_STEP)) ≠ 0 :=
    ne_of_gt (lt_max_of_lt_left (by norm_num))
  constructor
  · unfold to_screen screen_to_world
    simp only [Prod.mk.injEq]
    exact ⟨pyInt_eq_of _ _ (anchor_before_x _ _ _ _ hs),
           pyInt_eq_of _ _ (anchor_before_y _ _ _ _ hs)⟩
  · unfold to_screen wheel_zoom
    simp only [hv2, Prod.mk.injEq]
    exact ⟨pyInt_eq_of _ _ (anchor_after_x _ _ _ _ hs2),
           pyInt_eq_of _ _ (anchor_after_y _ _ _ _ hs2)⟩

/-- Witness for C9 at a concrete view, cursor and direction. -/
theorem wheel_zoom_anchor_witness :
    to_screen (wheel_zoom ⟨.fit, 1, 0, 0⟩ 1 0 0 3 4 true) 1 0 0
        (screen_to_world ⟨.fit, 1, 0, 0⟩ 1 0 0 3 4).1
        (screen_to_world ⟨.fit, 1, 0, 0⟩ 1 0 0 3 4).2 = (3, 4) :=
  (wheel_zoom_anchor ⟨.fit, 1, 0, 0⟩ 1 0 0 3 4 true (by norm_num [scaleOf])).2

/-! ## Ingestion claims -/

theorem upsert_raised_spec (st : RadarState) (nid : String) (name : Option String)
    (ts : Option ℚ) (nowv : ℚ) :
    (upsert_raised st nid name ts nowv).origin = st.origin ∧
    (getNode st.nodes nid = none → upsert_raised st nid name ts nowv = st) ∧
    (∀ r, getNode st.nodes nid = some r →
      ∃ r2, getNode (upsert_raised st nid name ts nowv).nodes nid = some r2 ∧
        r2.lat = r.lat ∧ r2.lon = r.lon ∧ r2.last = tsOrNow ts nowv) := by
  unfold upsert_raised
  rcases hg : getNode st.nodes nid with _ | r
  · exact ⟨rfl, fun _ => rfl, fun r hr => Option.noConfusion hr⟩
  · refine ⟨rfl, fun hc => Option.noConfusion hc, ?_⟩
    intro r0 hr0
    rw [Option.some.injEq] at hr0
    subst hr0
    refine ⟨_, getNode_setNode_self _ _ _, ?_, ?_, rfl⟩
    · rcases name with _ | s
      · rfl
      · by_cases hs : s = "" <;> simp [hs]
    · rcases name with _ | s
      · rfl
      · by_cases hs : s = "" <;> simp [hs]

/-- Counterexample for C7 as stated: (a) a nonempty dict packet with no
`fromId` and no `from` (a record missing its id) is not dropped by
`on_rx` — it creates a node record under the id `"unknown"`; (b) a
packet for an already-known id whose position carries an unfloatable
latitude does modify the stored record: `name` and `last` were written
into the aliased dict before `float` raised, so `last` moves from `100`
to the packet's `rxTime` `7` while the position stays `(1, 2)`. -/
theorem on_rx_not_dropped_cex :
    ((getNode (on_rx (.dict none none (some (.val 5)) none) initState 10).nodes
        "unknown").isSome = true ∧
      getNode initState.nodes "unknown" = none) ∧
    ((getNode (on_rx
          (.dict (some "A") none (some (.val 7))
            (some ⟨some (some .bad), some (some (.val 2))⟩))
          ⟨[("A", ⟨"A", some 1, some 2, 100⟩)], ⟨some 1, some 2, true⟩⟩ 10).nodes
        "A").map NodeRec.last = some 7 ∧
      (getNode (on_rx
          (.dict (some "A") none (some (.val 7))
            (some ⟨some (some .bad), some (some (.val 2))⟩))
          ⟨[("A", ⟨"A", some 1, some 2, 100⟩)], ⟨some 1, some 2, true⟩⟩ 10).nodes
        "A").map NodeRec.lat = some (some 1)) := by
  decide

/-- C7 (amended): `on_node_updated` drops non-dict, empty-dict and
empty-id records; `on_rx` drops `None`, bytes, non-dict and empty-dict
packets; a failing `float` on an uninterpretable truthy `rxTime` is
swallowed without changing the store; but a nonempty dict packet missing
both id fields is ingested under the id `"unknown"` rather than dropped,
and an unfloatable position value is not modification-free: when the id
is already known, `upsert_node` has written `name` and `last` into the
aliased stored record before `float` raises, so the record's `last`
becomes the update's timestamp while its position is preserved (for an
unknown id nothing is created). -/
theorem ingestion_malformed (st : RadarState) (nowv : ℚ) :
    (∀ (num : Option ℤ) (idF : Option String) user pos, nodeNid num idF = "" →
      on_node_updated (.dict num idF user pos) st nowv = st) ∧
    (on_node_updated .nonDict st nowv = st ∧ on_node_updated .emptyDict st nowv = st) ∧
    (on_rx .nonePkt st nowv = st ∧ on_rx .bytesPkt st nowv = st ∧
      on_rx .nonDict st nowv = st ∧ on_rx .emptyDict st nowv = st) ∧
    (∀ fromId fromF pos, on_rx (.dict fromId fromF (some .bad) pos) st nowv = st) ∧
    ((getNode (on_rx (.dict none none none none) st nowv).nodes
        "unknown").isSome = true) ∧
    (∀ (nid : String) (name : Option String) (la lo : PyFloat) (ts : Option ℚ),
      la = PyFloat.bad ∨ lo = PyFloat.bad →
      upsert_node_pv st nid name (some la) (some lo) ts nowv =
          .error (upsert_raised st nid name ts nowv) ∧
        (upsert_raised st nid name ts nowv).origin = st.origin ∧
        (getNode st.nodes nid = none → upsert_raised st nid name ts nowv = st) ∧
        (∀ r, getNode st.nodes nid = some r →
          ∃ r2, getNode (upsert_raised st nid name ts nowv).nodes nid = some r2 ∧
            r2.lat = r.lat ∧ r2.lon = r.lon ∧ r2.last = tsOrNow ts nowv)) := by
  refine ⟨?_, ⟨rfl, rfl⟩, ⟨rfl, rfl, rfl, rfl⟩, ?_, ?_, ?_⟩
  · intro num idF user pos hnid
    simp [on_node_updated, hnid]
  · intro fromId fromF pos
    rfl
  · simp [on_rx, on_rx_try, upsert_node, getNode_setNode_self, orS, strFrom, orOptS]
  · intro nid name la lo ts hbad
    have hspec := upsert_raised_spec st nid name ts nowv
    have herr : upsert_node_pv st nid name (some la) (some lo) ts nowv =
        .error (upsert_raised st nid name ts nowv) := by
      rcases la with qa | _
      · rcases lo with qb | _
        · rcases hbad with h | h <;> simp at h
        · rfl
      · rcases lo with qb | _ <;> rfl
    exact ⟨herr, hspec.1, hspec.2.1, hspec.2.2⟩

/-! ## KNN claims -/

theorem d2at_comm (pts : List Pt) (i j : ℕ) : d2at pts i j = d2at pts j i := by
  unfold d2at _euclid2
  ring

theorem d2at_min_max (pts : List Pt) (i j : ℕ) :
    d2at pts (min i j) (max i j) = d2at pts i j := by
  rcases le_total i j with h | h
  · rw [min_eq_left h, max_eq_right h]
  · rw [min_eq_right h, max_eq_left h, d2at_comm]

theorem dlistOf_mem (pts : List Pt) (i : ℕ) :
    ∀ dj ∈ dlistOf pts i, dj.1 = d2at pts i dj.2 ∧ dj.2 < pts.length ∧ dj.2 ≠ i := by
  intro dj hdj
  unfold dlistOf at hdj
  rw [List.mem_mergeSort] at hdj
  simp only [List.mem_map, List.mem_filter, List.mem_range] at hdj
  obtain ⟨j, ⟨hjr, hji⟩, rfl⟩ := hdj
  exact ⟨rfl, hjr, by simpa using hji⟩

theorem knnInner_sound (pts : List Pt) (i : ℕ) (m2 : ℚ) (k : ℕ)
    (dl : List (ℚ × ℕ)) (added : ℕ) (out : Finset (ℕ × ℕ))
    (hi : i < pts.length)
    (hdl : ∀ dj ∈ dl, dj.1 = d2at pts i dj.2 ∧ dj.2 < pts.length ∧ dj.2 ≠ i)
    (hout : ∀ e ∈ out, e.1 < e.2 ∧ e.2 < pts.length ∧ d2at pts e.1 e.2 ≤ m2) :
    ∀ e ∈ knnInner i m2 k dl added out,
      e.1 < e.2 ∧ e.2 < pts.length ∧ d2at pts e.1 e.2 ≤ m2 := by
  induction dl generalizing added out with
  | nil => exact hout
  | cons hd tl ih =>
    obtain ⟨d, j⟩ := hd
    have hd0 := hdl (d, j) (by simp)
    have hd1 : d = d2at pts i j := hd0.1
    have hd2 : j < pts.length := hd0.2.1
    have hd3 : j ≠ i := hd0.2.2
    have htl : ∀ dj ∈ tl, dj.1 = d2at pts i dj.2 ∧ dj.2 < pts.length ∧ dj.2 ≠ i :=
      fun dj hdj => hdl dj (by simp [hdj])
    have hins : d2at pts i j ≤ m2 → ∀ e ∈ insert (min i j, max i j) out,
        e.1 < e.2 ∧ e.2 < pts.length ∧ d2at pts e.1 e.2 ≤ m2 := by
      intro hdm e he
      rcases Finset.mem_insert.mp he with rfl | he
      · exact ⟨min_lt_max.mpr (Ne.symm hd3), max_lt hi hd2, by rwa [d2at_min_max]⟩
      · exact hout e he
    unfold knnInner
    by_cases h1 : d ≤ m2
    · rw [if_pos h1]
      by_cases h2 : (min i j, max i j) ∉ out
      · rw [if_pos h2]
        by_cases h3 : added + 1 ≥ k
        · rw [if_pos h3]
          exact hins (hd1 ▸ h1)
        · rw [if_neg h3]
          exact ih _ _ htl (hins (hd1 ▸ h1))
      · rw [if_neg h2]
        exact ih _ _ htl hout
    · rw [if_neg h1]
      exact ih _ _ htl hout

theorem knnOuter_sound (pts : List Pt) (m2 : ℚ) (k : ℕ) (l : List ℕ)
    (out : Finset (ℕ × ℕ)) (hl : ∀ i ∈ l, i < pts.length)
    (hout : ∀ e ∈ out, e.1 < e.2 ∧ e.2 < pts.length ∧ d2at pts e.1 e.2 ≤ m2) :
    ∀ e ∈ knnOuter pts m2 k l out,
      e.1 < e.2 ∧ e.2 < pts.length ∧ d2at pts e.1 e.2 ≤ m2 := by
  induction l generalizing out with
  | nil => exact hout
  | cons i tl ih =>
    exact ih _ (fun x hx => hl x (by simp [hx]))
      (knnInner_sound pts i m2 k (dlistOf pts i) 0 out (hl i (by simp))
        (dlistOf_mem pts i) hout)

/-- C5 (amended): every edge returned by `build_knn_edges` is a
canonical deduplicated pair of valid indices with endpoint distance at
most `maxDistance` in absolute value (squared distance at most
`max_m * max_m`); but the per-point budget `k` counts only pairs newly
inserted for that point, so a point whose nearest pairs were already
inserted by earlier points may also link to points beyond its `k`
nearest, and the edge set is not the plain union of per-point
`k`-nearest selections. -/
theorem knn_edges_sound (pts : List Pt) (k : ℕ) (m : ℚ) :
    ∀ e ∈ build_knn_edges pts k m,
      e.1 < e.2 ∧ e.2 < pts.length ∧ d2at pts e.1 e.2 ≤ m * m := by
  unfold build_knn_edges
  exact knnOuter_sound pts (m * m) k (List.range pts.length) ∅ (by simp) (by simp)

unseal Rat.add Rat.sub Rat.mul List.merge List.mergeSort in
/-- Witness for C5 (amended): the single edge of a two-point set. -/
theorem knn_edges_sound_witness :
    (0, 1).1 < (0, 1).2 ∧ (0, 1).2 < ([((0 : ℚ), (0 : ℚ)), (1, 0)] : List Pt).length ∧
      d2at [((0 : ℚ), (0 : ℚ)), (1, 0)] (0, 1).1 (0, 1).2 ≤ 100 * 100 :=
  knn_edges_sound [((0 : ℚ), (0 : ℚ)), (1, 0)] 2 100 (0, 1) (by decide)

unseal Rat.add Rat.sub Rat.mul List.merge List.mergeSort in
/-- Counterexample for C5 as stated: with `k = 1` on the collinear points
`(0,0), (1,0), (3,0)`, the code returns the edge `(0, 2)` although point
`2` is not among the `1` nearest of point `0` nor conversely; the
spec-modelled union of per-point nearest selections does not contain
it. -/
theorem knn_not_k_nearest_cex :
    (0, 2) ∈ build_knn_edges [((0 : ℚ), (0 : ℚ)), (1, 0), (3, 0)] 1 100 ∧
    (0, 2) ∉ knn_spec [((0 : ℚ), (0 : ℚ)), (1, 0), (3, 0)] 1 100 := by decide

theorem knnInner_zero_one (i : ℕ) (m2 : ℚ) (dl : List (ℚ × ℕ)) (out : Finset (ℕ × ℕ)) :
    knnInner i m2 0 dl 0 out = knnInner i m2 1 dl 0 out := by
  induction dl generalizing out with
  | nil => rfl
  | cons hd tl ih =>
    obtain ⟨d, j⟩ := hd
    unfold knnInner
    by_cases h1 : d ≤ m2
    · simp only [if_pos h1]
      by_cases h2 : (min i j, max i j) ∉ out
      · simp only [if_pos h2]
        norm_num
      · simp only [if_neg h2]
        exact ih out
    · simp only [if_neg h1]
      exact ih out

theorem knnOuter_zero_one (pts : List Pt) (m2 : ℚ) (l : List ℕ) (out : Finset (ℕ × ℕ)) :
    knnOuter pts m2 0 l out = knnOuter pts m2 1 l out := by
  induction l generalizing out with
  | nil => rfl
  | cons i tl ih =>
    unfold knnOuter
    rw [knnInner_zero_one, ih]

/-- C6 (amended): invalid configurations are not treated as "no
neighbours selected".  `k = 0` behaves exactly like `k = 1` (the break
test `added >= k` runs only after an insertion), and a non-positive
`maxDistance` is squared, so `-m` selects exactly what `m` selects
(`maxDistance 0` still links coincident points); no failure occurs in
either case. -/
theorem knn_invalid_config (pts : List Pt) (k : ℕ) (m : ℚ) :
    build_knn_edges pts 0 m = build_knn_edges pts 1 m ∧
    build_knn_edges pts k (-m) = build_knn_edges pts k m := by
  constructor
  · exact knnOuter_zero_one pts (m * m) (List.range pts.length) ∅
  · unfold build_knn_edges
    rw [neg_mul_neg]

unseal Rat.add Rat.sub Rat.mul List.merge List.mergeSort in
/-- Counterexample for C6 as stated: `k = 0` still links the two points;
`maxDistance = 0` links coincident points; `maxDistance = -5` links
points at distance `3`.  None of these returns the empty edge set. -/
theorem knn_invalid_config_cex :
    build_knn_edges [((0 : ℚ), (0 : ℚ)), (1, 0)] 0 100 = {(0, 1)} ∧
    build_knn_edges [((0 : ℚ), (0 : ℚ)), (0, 0)] 2 0 = {(0, 1)} ∧
    build_knn_edges [((0 : ℚ), (0 : ℚ)), (3, 0)] 2 (-5) = {(0, 1)} := by decide

/-! ## Growth lists: the shape invariant behind Prim's algorithm -/

theorem growVerts_eq (vs : List ℕ) (es : List (ℕ × ℕ)) :
    growVerts vs es = vs ++ es.map Prod.fst := by
  induction es generalizing vs with
  | nil => simp [growVerts]
  | cons e r ih =>
    rw [growVerts, ih]
    simp

theorem IsGrowthL_append (vs : List ℕ) (es : List (ℕ × ℕ)) (a b : ℕ)
    (h : IsGrowthL vs es) (ha : a ∉ growVerts vs es) (hb : b ∈ growVerts vs es) :
    IsGrowthL vs (es ++ [(a, b)]) := by
  induction es generalizing vs with
  | nil =>
    simp only [growVerts] at ha hb
    exact ⟨ha, hb, trivial⟩
  | cons e r ih =>
    obtain ⟨h1, h2, h3⟩ := h
    exact ⟨h1, h2, ih _ h3 ha hb⟩

theorem growVerts_nodup (vs : List ℕ) (es : List (ℕ × ℕ))
    (hvs : vs.Nodup) (h : IsGrowthL vs es) : (growVerts vs es).Nodup := by
  induction es generalizing vs with
  | nil => exact hvs
  | cons e r ih =>
    obtain ⟨h1, h2, h3⟩ := h
    refine ih _ ?_ h3
    rw [List.nodup_append]
    exact ⟨hvs, List.nodup_singleton _, by simpa using fun hc => h1 hc⟩

theorem IsGrowthL_fst_not_mem (vs : List ℕ) (es : List (ℕ × ℕ))
    (h : IsGrowthL vs es) : ∀ e ∈ es, e.1 ∉ vs := by
  induction es generalizing vs with
  | nil => simp
  | cons e0 r ih =>
    obtain ⟨h1, h2, h3⟩ := h
    intro e he
    rcases List.mem_cons.mp he with rfl | he
    · exact h1
    · intro hc
      exact ih _ h3 e he (by simp [hc])

theorem IsGrowthL_connected (vs : List ℕ) (es : List (ℕ × ℕ)) (h : IsGrowthL vs es) :
    ∀ v ∈ growVerts vs es, ∃ u ∈ vs, Relation.ReflTransGen (adjE es) u v := by
  induction es generalizing vs with
  | nil =>
    intro v hv
    exact ⟨v, hv, Relation.ReflTransGen.refl⟩
  | cons e0 r ih =>
    obtain ⟨h1, h2, h3⟩ := h
    intro v hv
    rw [growVerts] at hv
    obtain ⟨u, hu, hrtg⟩ := ih _ h3 v hv
    have hrtg2 : Relation.ReflTransGen (adjE (e0 :: r)) u v :=
      hrtg.mono (fun x y hxy => by
        rcases hxy with hm | hm
        · exact Or.inl (List.mem_cons_of_mem _ hm)
        · exact Or.inr (List.mem_cons_of_mem _ hm))
    rcases List.mem_append.mp hu with hu | hu
    · exact ⟨u, hu, hrtg2⟩
    · have hu0 : u = e0.1 := by simpa using hu
      subst hu0
      refine ⟨e0.2, h2, Relation.ReflTransGen.head ?_ hrtg2⟩
      exact Or.inr (by simp)

theorem IsGrowthL_rank_lt (vs : List ℕ) (es : List (ℕ × ℕ))
    (hvs : vs.Nodup) (h : IsGrowthL vs es) :
    ∀ e ∈ es, (growVerts vs es).indexOf e.2 < (growVerts vs es).indexOf e.1 := by
  induction es generalizing vs with
  | nil => simp
  | cons e0 r ih =>
    obtain ⟨h1, h2, h3⟩ := h
    intro e he
    rcases List.mem_cons.mp he with rfl | he
    · rw [growVerts, growVerts_eq]
      have hfst : ∀ p ∈ r, p.1 ∉ vs ++ [e.1] := IsGrowthL_fst_not_mem _ _ h3
      have he2 : e.2 ∈ vs ++ [e.1] := by simp [h2]
      have hnot1 : e.1 ∉ vs := h1
      rw [List.append_assoc] at *
      rw [List.indexOf_append_of_mem (by simp [h2]),
        List.indexOf_append_of_not_mem hnot1]
      have hlt : List.indexOf e.2 vs < vs.length :=
        List.indexOf_lt_length.mpr h2
      have : 0 ≤ List.indexOf e.1 ([e.1] ++ r.map Prod.fst) := Nat.zero_le _
      omega
    · have := ih _ (by
        rw [List.nodup_append]
        exact ⟨hvs, List.nodup_singleton _, by simpa using fun hc => h1 hc⟩) h3 e he
      rwa [growVerts]

theorem IsGrowthL_sym2_nodup (vs : List ℕ) (es : List (ℕ × ℕ))
    (h : IsGrowthL vs es) :
    (es.map (fun e => s(e.1, e.2))).Nodup := by
  induction es generalizing vs with
  | nil => simp
  | cons e0 r ih =>
    obtain ⟨h1, h2, h3⟩ := h
    rw [List.map_cons, List.nodup_cons]
    refine ⟨?_, ih _ h3⟩
    intro hc
    rw [List.mem_map] at hc
    obtain ⟨p, hp, hps⟩ := hc
    have hp1 : p.1 ∉ vs ++ [e0.1] := IsGrowthL_fst_not_mem _ _ h3 p hp
    rcases Sym2.eq_iff.mp hps with ⟨ha, hb⟩ | ⟨ha, hb⟩
    · exact hp1 (by simp [ha])
    · exact hp1 (by simp [ha, h2])

theorem fst_nodup_unique (es : List (ℕ × ℕ)) (hfst : (es.map Prod.fst).Nodup)
    (a b1 b2 : ℕ) (h1 : (a, b1) ∈ es) (h2 : (a, b2) ∈ es) : b1 = b2 := by
  induction es with
  | nil => simp at h1
  | cons e0 r ih =>
    rw [List.map_cons, List.nodup_cons] at hfst
    rcases List.mem_cons.mp h1 with rfl | h1m
    · rcases List.mem_cons.mp h2 with he | h2m
      · exact (Prod.ext_iff.mp he).2.symm
      · exact absurd (List.mem_map.mpr ⟨(a, b2), h2m, rfl⟩) hfst.1
    · rcases List.mem_cons.mp h2 with rfl | h2m
      · exact absurd (List.mem_map.mpr ⟨(a, b1), h1m, rfl⟩) hfst.1
      · exact ih hfst.2 h1m h2m

theorem childOf_eq (es : List (ℕ × ℕ)) (hsym : (es.map (fun e => s(e.1, e.2))).Nodup)
    (a b : ℕ) (hab : (a, b) ∈ es) : childOf es s(a, b) = a := by
  induction es with
  | nil => simp at hab
  | cons e0 r ih =>
    rw [List.map_cons, List.nodup_cons] at hsym
    unfold childOf
    rw [List.find?_cons]
    by_cases hhd : s(e0.1, e0.2) = s(a, b)
    · have hbeq : (s(e0.1, e0.2) == s(a, b)) = true := by
        simpa using hhd
      rw [hbeq]
      rcases List.mem_cons.mp hab with he | hm
      · simp [← he]
      · exact absurd (hhd ▸ List.mem_map.mpr ⟨(a, b), hm, rfl⟩) hsym.1
    · have hbeq : (s(e0.1, e0.2) == s(a, b)) = false := by
        simpa using hhd
      rw [hbeq]
      have hm : (a, b) ∈ r := by
        rcases List.mem_cons.mp hab with he | hm
        · exact absurd (by rw [← he]) hhd
        · exact hm
      exact ih hsym.2 hm

/-! ## Acyclicity of a growth graph -/

theorem mem_tail_of_mem_support_closed {V : Type} {G : SimpleGraph V} {v x : V}
    (c : G.Walk v v) (hlen : 1 ≤ c.length) (hx : x ∈ c.support) :
    x ∈ c.support.tail := by
  cases c with
  | nil => simp at hlen
  | cons h p =>
    rw [SimpleGraph.Walk.support_cons] at hx
    rw [SimpleGraph.Walk.support_cons]
    simp only [List.tail_cons]
    rcases List.mem_cons.mp hx with rfl | hx
    · exact SimpleGraph.Walk.end_mem_support p
    · exact hx

theorem cycle_edge_to_pair {n : ℕ} {es : List (ℕ × ℕ)} {v : Fin n}
    (c : (idxGraph n es).Walk v v) (hlen : 1 ≤ c.length) (e : Sym2 (Fin n))
    (he : e ∈ c.edges) :
    ∃ a b : ℕ, (a, b) ∈ es ∧ Sym2.map Fin.val e = s(a, b) ∧
      a ∈ c.support.tail.map Fin.val ∧ b ∈ c.support.tail.map Fin.val := by
  revert he
  refine Sym2.ind (fun u w => ?_) e
  intro he
  have hadj : (idxGraph n es).Adj u w :=
    (idxGraph n es).mem_edgeSet.mp (c.edges_subset_edgeSet he)
  have hu : u ∈ c.support.tail :=
    mem_tail_of_mem_support_closed c hlen (c.fst_mem_support_of_mem_edges he)
  have hw : w ∈ c.support.tail :=
    mem_tail_of_mem_support_closed c hlen (c.snd_mem_support_of_mem_edges he)
  rcases hadj.2 with hm | hm
  · exact ⟨u.val, w.val, hm, by simp [Sym2.map_pair_eq],
      List.mem_map.mpr ⟨u, hu, rfl⟩, List.mem_map.mpr ⟨w, hw, rfl⟩⟩
  · exact ⟨w.val, u.val, hm, by rw [Sym2.map_pair_eq, Sym2.eq_swap],
      List.mem_map.mpr ⟨w, hw, rfl⟩, List.mem_map.mpr ⟨u, hu, rfl⟩⟩

/-- A graph whose edges each join a strictly later-ranked new vertex to
an earlier one, with no repeated unordered pair and no repeated new
endpoint, has no cycle: a cycle would have as many distinct edges as
distinct vertices, so its minimum-rank vertex would be the new endpoint
of some cycle edge whose other end ranks strictly lower yet also lies on
the cycle. -/
theorem growth_acyclic (n : ℕ) (es : List (ℕ × ℕ)) (rk : ℕ → ℕ)
    (hsym : (es.map (fun e => s(e.1, e.2))).Nodup)
    (hfst : (es.map Prod.fst).Nodup)
    (hrk : ∀ e ∈ es, rk e.2 < rk e.1) :
    (idxGraph n es).IsAcyclic := by
  intro v c hc
  have hlen3 : 3 ≤ c.length := hc.three_le_length
  have hlen1 : 1 ≤ c.length := by omega
  classical
  have hedup : (c.edges.map (Sym2.map Fin.val)).Nodup :=
    (hc.toIsCircuit.toIsTrail.edges_nodup).map (Sym2.map.injective Fin.val_injective)
  have htdup : (c.support.tail.map Fin.val).Nodup :=
    hc.support_nodup.map Fin.val_injective
  have hScard : (c.edges.map (Sym2.map Fin.val)).toFinset.card = c.length := by
    rw [List.toFinset_card_of_nodup hedup, List.length_map, SimpleGraph.Walk.length_edges]
  have hTcard : (c.support.tail.map Fin.val).toFinset.card = c.length := by
    rw [List.toFinset_card_of_nodup htdup, List.length_map, List.length_tail,
      SimpleGraph.Walk.length_support, Nat.add_sub_cancel]
  have hsurj := Finset.surj_on_of_inj_on_of_card_le
    (s := (c.edges.map (Sym2.map Fin.val)).toFinset)
    (t := (c.support.tail.map Fin.val).toFinset)
    (fun e _ => childOf es e) ?_ ?_ (by rw [hScard, hTcard])
  · have hTne : ((c.support.tail.map Fin.val).toFinset : Finset ℕ).Nonempty := by
      rw [← Finset.card_pos, hTcard]
      omega
    obtain ⟨m, hmT, hmin⟩ := Finset.exists_min_image _ rk hTne
    obtain ⟨e, heS, hme⟩ := hsurj m hmT
    rw [List.mem_toFinset, List.mem_map] at heS
    obtain ⟨e0, he0, rfl⟩ := heS
    obtain ⟨a, b, hab, hmap, haT, hbT⟩ := cycle_edge_to_pair c hlen1 e0 he0
    have hme2 : m = childOf es (Sym2.map Fin.val e0) := hme
    rw [hmap, childOf_eq es hsym a b hab] at hme2
    have hba : rk b < rk a := hrk (a, b) hab
    have hle : rk a ≤ rk b := by
      have hmb := hmin b (List.mem_toFinset.mpr hbT)
      rwa [hme2] at hmb
    omega
  · intro e heS
    rw [List.mem_toFinset, List.mem_map] at heS
    obtain ⟨e0, he0, rfl⟩ := heS
    obtain ⟨a, b, hab, hmap, haT, hbT⟩ := cycle_edge_to_pair c hlen1 e0 he0
    show childOf es (Sym2.map Fin.val e0) ∈ _
    rw [hmap, childOf_eq es hsym a b hab]
    exact List.mem_toFinset.mpr haT
  · intro e1 e2 he1 he2 hch
    rw [List.mem_toFinset, List.mem_map] at he1 he2
    obtain ⟨d1, hd1, rfl⟩ := he1
    obtain ⟨d2, hd2, rfl⟩ := he2
    obtain ⟨a1, b1, hab1, hmap1, -, -⟩ := cycle_edge_to_pair c hlen1 d1 hd1
    obtain ⟨a2, b2, hab2, hmap2, -, -⟩ := cycle_edge_to_pair c hlen1 d2 hd2
    have hch2 : childOf es (Sym2.map Fin.val d1) = childOf es (Sym2.map Fin.val d2) := hch
    rw [hmap1, hmap2, childOf_eq es hsym a1 b1 hab1, childOf_eq es hsym a2 b2 hab2] at hch2
    subst hch2
    rw [hmap1, hmap2, fst_nodup_unique es hfst a1 b1 b2 hab1 hab2]

/-! ## The selection loop of `build_mst_edges` -/

theorem selectFold_inv (st : MstState) (n : ℕ) (l : List ℕ) (hl : ∀ j ∈ l, j < n) :
    ∀ acc : ℤ × WithTop ℚ,
      ((acc.1 = -1 ∧ acc.2 = ⊤) ∨
        (∃ j, j < n ∧ st.in_tree j = false ∧ acc.1 = (j : ℤ) ∧ acc.2 < ⊤)) →
      (((l.foldl (selectFold st) acc).1 = -1 ∧ (l.foldl (selectFold st) acc).2 = ⊤) ∨
        (∃ j, j < n ∧ st.in_tree j = false ∧ (l.foldl (selectFold st) acc).1 = (j : ℤ) ∧
          (l.foldl (selectFold st) acc).2 < ⊤)) := by
  induction l with
  | nil => intro acc h; exact h
  | cons i tl ih =>
    intro acc h
    rw [List.foldl_cons]
    refine ih (fun j hj => hl j (by simp [hj])) _ ?_
    unfold selectFold
    by_cases hc : st.in_tree i = false ∧ st.dist2 i < acc.2
    · rw [if_pos hc]
      exact Or.inr ⟨i, hl i (by simp), hc.1, rfl, lt_of_lt_of_le hc.2 le_top⟩
    · rw [if_neg hc]
      exact h

theorem selectFold_mono (st : MstState) (l : List ℕ) :
    ∀ acc, (l.foldl (selectFold st) acc).2 ≤ acc.2 := by
  induction l with
  | nil => intro acc; exact le_rfl
  | cons i tl ih =>
    intro acc
    rw [List.foldl_cons]
    refine le_trans (ih _) ?_
    unfold selectFold
    by_cases hc : st.in_tree i = false ∧ st.dist2 i < acc.2
    · rw [if_pos hc]
      exact le_of_lt hc.2
    · rw [if_neg hc]

theorem selectFold_hit (st : MstState) (l : List ℕ)
    (hx : ∃ j ∈ l, st.in_tree j = false ∧ st.dist2 j < ⊤) :
    ∀ acc, (l.foldl (selectFold st) acc).2 < ⊤ := by
  induction l with
  | nil => simp at hx
  | cons i tl ih =>
    intro acc
    rw [List.foldl_cons]
    obtain ⟨j, hj, hjt, hjd⟩ := hx
    rcases List.mem_cons.mp hj with rfl | hjm
    · refine lt_of_le_of_lt (selectFold_mono st tl _) ?_
      unfold selectFold
      by_cases hc : st.in_tree j = false ∧ st.dist2 j < acc.2
      · rw [if_pos hc]
        exact hjd
      · rw [if_neg hc]
        push_neg at hc
        exact lt_of_le_of_lt (hc hjt) hjd
    · exact ih ⟨j, hjm, hjt, hjd⟩ _

theorem selectMin_success (st : MstState) (n : ℕ)
    (hex : ∃ j, j < n ∧ st.in_tree j = false ∧ st.dist2 j ≠ ⊤) :
    ∃ j, j < n ∧ st.in_tree j = false ∧ (selectMin st n).1 = (j : ℤ) := by
  obtain ⟨j, hj, hjt, hjd⟩ := hex
  have hhit : ((List.range n).foldl (selectFold st) (-1, ⊤)).2 < ⊤ :=
    selectFold_hit st (List.range n)
      ⟨j, List.mem_range.mpr hj, hjt, lt_top_iff_ne_top.mpr hjd⟩ _
  have hinv := selectFold_inv st n (List.range n) (fun x hx => List.mem_range.mp hx)
    (-1, ⊤) (Or.inl ⟨rfl, rfl⟩)
  unfold selectMin
  rcases hinv with ⟨h1, h2⟩ | ⟨j2, hj2, hjt2, hk, hlt⟩
  · rw [h2] at hhit
    exact absurd hhit (lt_irrefl ⊤)
  · exact ⟨j2, hj2, hjt2, hk⟩

/-! ## The step and loop of `build_mst_edges` -/

theorem mstStep_inv (pts : List Pt) (st : MstState) (k : ℕ)
    (hinv : MstInv pts.length st) (hk : k < pts.length) (hkt : st.in_tree k = false) :
    MstInv pts.length (mstStep pts st k) ∧
      (mstStep pts st k).edges.length = st.edges.length + 1 := by
  obtain ⟨hsub, hzero, hnon, hgrow, hiff, hbnd⟩ := hinv
  obtain ⟨hpd, hpl, hpn, hpt⟩ := hnon k hk hkt
  have hedges : edgesN (st.edges ++ [(k, st.parent k)]) =
      edgesN st.edges ++ [(k, (st.parent k).toNat)] := by
    simp [edgesN]
  have hverts : growVerts [0] (edgesN (st.edges ++ [(k, st.parent k)])) =
      growVerts [0] (edgesN st.edges) ++ [k] := by
    rw [hedges, growVerts_eq, growVerts_eq]
    simp
  constructor
  · refine ⟨?_, ?_, ?_, ?_, ?_, ?_⟩
    · intro j hj
      simp only [mstStep, Bool.or_eq_true, beq_iff_eq] at hj
      rcases hj with rfl | hj
      · exact hk
      · exact hsub j hj
    · simp only [mstStep, Bool.or_eq_true, beq_iff_eq]
      exact Or.inr hzero
    · intro j hj hjt
      simp only [mstStep, Bool.or_eq_false_iff, beq_eq_false_iff_ne] at hjt
      obtain ⟨hjk, hjtf⟩ := hjt
      obtain ⟨hod, hol, hon, hot⟩ := hnon j hj hjtf
      simp only [mstStep]
      by_cases hC : j < pts.length ∧ (j == k || st.in_tree j) = false ∧
          ((d2at pts k j : ℚ) : WithTop ℚ) < st.dist2 j
      · rw [if_pos hC, if_pos hC]
        refine ⟨WithTop.coe_ne_top, Int.natCast_nonneg k, ?_, ?_⟩
        · rw [Int.toNat_natCast]
          exact hk
        · rw [Int.toNat_natCast]
          simp
      · rw [if_neg hC, if_neg hC]
        exact ⟨hod, hol, hon, by simp [hot]⟩
    · simp only [mstStep]
      rw [hedges]
      refine IsGrowthL_append _ _ _ _ hgrow ?_ ?_
      · intro hc
        rw [hiff k] at hc
        rw [hc] at hkt
        simp at hkt
      · rw [hiff]
        exact hpt
    · intro j
      simp only [mstStep]
      rw [hverts, List.mem_append, List.mem_singleton, hiff, Bool.or_eq_true, beq_iff_eq]
      tauto
    · intro e he
      simp only [mstStep] at he
      rcases List.mem_append.mp he with he | he
      · exact hbnd e he
      · have he2 : e = (k, st.parent k) := by simpa using he
        subst he2
        exact ⟨hk, hpl, hpn⟩
  · simp [mstStep]

theorem mstInit_inv (pts : List Pt) (hn : 1 ≤ pts.length) :
    MstInv pts.length (mstInit pts) := by
  refine ⟨?_, ?_, ?_, trivial, ?_, ?_⟩
  · intro j hj
    simp only [mstInit, beq_iff_eq] at hj
    omega
  · simp [mstInit]
  · intro j hj hjt
    simp only [mstInit, beq_eq_false_iff_ne, ne_eq] at hjt
    have hcond : 1 ≤ j ∧ j < pts.length := ⟨by omega, hj⟩
    simp only [mstInit]
    rw [if_pos hcond, if_pos hcond]
    exact ⟨WithTop.coe_ne_top, le_refl 0, by simpa using hn, by simp⟩
  · intro j
    simp only [mstInit, beq_iff_eq]
    constructor
    · intro hm
      simpa [growVerts] using hm
    · intro hm
      simpa [growVerts] using hm
  · intro e he
    simp only [mstInit] at he
    simp at he

theorem mstLoop_inv (pts : List Pt) (t : ℕ) :
    ∀ st : MstState, MstInv pts.length st →
      st.edges.length + 1 + t ≤ pts.length →
      MstInv pts.length (mstLoop pts t st) ∧
        (mstLoop pts t st).edges.length = st.edges.length + t := by
  induction t with
  | zero => intro st hinv _; exact ⟨hinv, rfl⟩
  | succ t ih =>
    intro st hinv hroom
    have hex0 : ∃ j, j < pts.length ∧ st.in_tree j = false := by
      by_contra hno
      push_neg at hno
      have hsubset : (List.range pts.length).toFinset ⊆
          (growVerts [0] (edgesN st.edges)).toFinset := by
        intro x hx
        rw [List.mem_toFinset, List.mem_range] at hx
        rw [List.mem_toFinset, hinv.grow_iff]
        cases hxx : st.in_tree x
        · exact absurd hxx (hno x hx)
        · rfl
      have hcard := Finset.card_le_card hsubset
      rw [List.toFinset_card_of_nodup (List.nodup_range _),
        List.toFinset_card_of_nodup (growVerts_nodup _ _ (by simp) hinv.growth),
        List.length_range, growVerts_eq] at hcard
      simp only [List.length_append, List.length_map, List.length_cons,
        List.length_nil, edgesN] at hcard
      omega
    obtain ⟨j0, hj0, hjt0⟩ := hex0
    obtain ⟨j, hj, hjt, hsel⟩ := selectMin_success st pts.length
      ⟨j0, hj0, hjt0, (hinv.nontree j0 hj0 hjt0).1⟩
    have hstep := mstStep_inv pts st j hinv hj hjt
    have hloop := ih (mstStep pts st j) hstep.1 (by omega)
    have hred : mstLoop pts (t + 1) st = mstLoop pts t (mstStep pts st j) := by
      rw [mstLoop, hsel, if_neg (not_lt.mpr (Int.natCast_nonneg j)), Int.toNat_natCast]
    rw [hred]
    exact ⟨hloop.1, by omega⟩

theorem rtg_to_reachable {n : ℕ} {es : List (ℕ × ℕ)}
    (hbd : ∀ e ∈ es, e.1 < n ∧ e.2 < n) (hne : ∀ e ∈ es, e.1 ≠ e.2) :
    ∀ (a b : ℕ), Relation.ReflTransGen (adjE es) a b →
      ∀ (ha : a < n) (hb : b < n), (idxGraph n es).Reachable ⟨a, ha⟩ ⟨b, hb⟩ := by
  intro a b hrtg
  induction hrtg with
  | refl =>
    intro ha hb
    exact SimpleGraph.Reachable.refl _
  | @tail c b hac hadj ih =>
    intro ha hb
    have hc : c < n := by
      rcases hadj with hm | hm
      · exact (hbd _ hm).1
      · exact (hbd _ hm).2
    have hcb : c ≠ b := by
      rcases hadj with hm | hm
      · exact hne _ hm
      · exact (hne _ hm).symm
    exact (ih ha hc).trans (SimpleGraph.Adj.reachable ⟨Fin.ne_of_val_ne hcb, hadj⟩)

/-- C4: for every point list of size `n ≥ 1`, `build_mst_edges` returns
exactly `n - 1` edges whose edge set forms a connected acyclic graph (a
spanning tree) over all `n` indices; for `n ≤ 1` it returns no edges. -/
theorem mst_spanning_tree (pts : List Pt) (h : 1 ≤ pts.length) :
    (build_mst_edges pts).length = pts.length - 1 ∧
    (pts.length ≤ 1 → build_mst_edges pts = []) ∧
    (idxGraph pts.length (edgesN (build_mst_edges pts))).IsTree := by
  by_cases h1 : pts.length ≤ 1
  · have hb : build_mst_edges pts = [] := by
      unfold build_mst_edges
      rw [if_pos h1]
    have hn1 : pts.length = 1 := by omega
    refine ⟨by rw [hb]; simp; omega, fun _ => hb, ?_, ?_⟩
    · rw [SimpleGraph.connected_iff]
      constructor
      · intro u w
        have h2 := u.2
        have h3 := w.2
        have huw : u = w := Fin.ext (by omega)
        rw [huw]
      · rw [hn1]
        exact ⟨⟨0, by omega⟩⟩
    · exact growth_acyclic _ _ (fun _ => 0) (by rw [hb]; simp [edgesN])
        (by rw [hb]; simp [edgesN]) (by rw [hb]; simp [edgesN])
  · push_neg at h1
    have hb : build_mst_edges pts = (mstLoop pts (pts.length - 1) (mstInit pts)).edges := by
      unfold build_mst_edges
      rw [if_neg (by omega)]
    obtain ⟨hinv, hlen⟩ := mstLoop_inv pts (pts.length - 1) (mstInit pts)
      (mstInit_inv pts (by omega)) (by simp only [mstInit]; simp; omega)
    set fs := mstLoop pts (pts.length - 1) (mstInit pts) with hfs
    have hlen2 : fs.edges.length = pts.length - 1 := by
      rw [hlen]
      simp [mstInit]
    have hnodup0 : ([0] : List ℕ).Nodup := by simp
    have hvnodup := growVerts_nodup [0] (edgesN fs.edges) hnodup0 hinv.growth
    have hvlen : (growVerts [0] (edgesN fs.edges)).length = pts.length := by
      rw [growVerts_eq]
      simp only [List.length_append, List.length_map, List.length_cons, List.length_nil,
        edgesN, hlen2]
      omega
    have hcover : ∀ x : ℕ, x < pts.length → x ∈ growVerts [0] (edgesN fs.edges) := by
      intro x hx
      have hsub : (growVerts [0] (edgesN fs.edges)).toFinset ⊆
          (List.range pts.length).toFinset := by
        intro y hy
        rw [List.mem_toFinset] at hy
        rw [List.mem_toFinset, List.mem_range]
        exact hinv.tree_sub y ((hinv.grow_iff y).mp hy)
      have heq : (growVerts [0] (edgesN fs.edges)).toFinset =
          (List.range pts.length).toFinset := by
        apply Finset.eq_of_subset_of_card_le hsub
        rw [List.toFinset_card_of_nodup (List.nodup_range _), List.length_range,
          List.toFinset_card_of_nodup hvnodup, hvlen]
      rw [← List.mem_toFinset, heq, List.mem_toFinset, List.mem_range]
      exact hx
    have hbd : ∀ e ∈ edgesN fs.edges, e.1 < pts.length ∧ e.2 < pts.length := by
      intro e he
      simp only [edgesN, List.mem_map] at he
      obtain ⟨p, hp, rfl⟩ := he
      obtain ⟨hq1, hq2, hq3⟩ := hinv.bounds p hp
      exact ⟨hq1, hq3⟩
    have hrk : ∀ e ∈ edgesN fs.edges,
        rankOf (edgesN fs.edges) e.2 < rankOf (edgesN fs.edges) e.1 :=
      fun e he => IsGrowthL_rank_lt [0] (edgesN fs.edges) hnodup0 hinv.growth e he
    have hne2 : ∀ e ∈ edgesN fs.edges, e.1 ≠ e.2 := by
      intro e he hq
      have hlt := hrk e he
      rw [hq] at hlt
      exact lt_irrefl _ hlt
    have hfst : ((edgesN fs.edges).map Prod.fst).Nodup := by
      have hv2 := hvnodup
      rw [growVerts_eq, List.nodup_append] at hv2
      exact hv2.2.1
    have hsym2 := IsGrowthL_sym2_nodup [0] (edgesN fs.edges) hinv.growth
    refine ⟨by rw [hb]; exact hlen2, fun hc => absurd hc (by omega), ?_⟩
    rw [hb]
    constructor
    · rw [SimpleGraph.connected_iff]
      have reach0 : ∀ x : Fin pts.length,
          (idxGraph pts.length (edgesN fs.edges)).Reachable ⟨0, by omega⟩ x := by
        intro x
        obtain ⟨u, hu, hrtg⟩ := IsGrowthL_connected [0] (edgesN fs.edges) hinv.growth
          x.val (hcover x.val x.isLt)
        have hu0 : u = 0 := by simpa using hu
        subst hu0
        have hr := rtg_to_reachable hbd hne2 0 x.val hrtg (by omega) x.isLt
        exact hr
      exact ⟨fun u w => (reach0 u).symm.trans (reach0 w), ⟨⟨0, by omega⟩⟩⟩
    · exact growth_acyclic _ _ (rankOf (edgesN fs.edges)) hsym2 hfst hrk

unseal Rat.add Rat.sub Rat.mul List.merge List.mergeSort in
/-- Witness for C4 on three concrete collinear points. -/
theorem mst_spanning_tree_witness :
    (build_mst_edges [((0 : ℚ), (0 : ℚ)), (1, 0), (3, 0)]).length = 2 ∧
    (idxGraph 3 (edgesN (build_mst_edges [((0 : ℚ), (0 : ℚ)), (1, 0), (3, 0)]))).IsTree := by
  have hw := mst_spanning_tree [((0 : ℚ), (0 : ℚ)), (1, 0), (3, 0)] (by norm_num)
  exact ⟨hw.1, hw.2.2⟩

end OMAP
